import Mathlib

/-!
Verification of the secret-sharing library (Shamir secret sharing in
`src/sss.rs` and Feldman verifiable secret sharing in `src/vss.rs`).

Arbitrary-precision unsigned integers (`BigUint`) are modelled as `Nat`.
`BigUint` subtraction and `modpow` panic on underflow / a zero modulus;
a reachable panic of this kind is modelled as `Except.error ()`.
`BigUint::modpow` is modelled by the executable `modPow` below, proved
equal to `b ^ e % m`.  The thread random generator embedded in the VSS
struct is modelled as a stream `rng : Nat -> Nat` together with a counter
of how many values have been drawn so far; drawing k fresh values reads
`rng ctr, …, rng (ctr+k-1)` and advances the counter by `k`.
-/

set_option maxRecDepth 4000
set_option exponentiation.threshold 600

/-- One square-and-multiply step of binary modular exponentiation. -/
def modPowStep (h b e m : Nat) : Nat :=
  if e % 2 = 0 then h ^ 2 % m else h ^ 2 % m * b % m

/-- Fuel-driven binary modular exponentiation; with fuel at least `e` it
computes `b ^ e % m`, mirroring `BigUint::modpow`. -/
def modPowAux : Nat → Nat → Nat → Nat → Nat
  | 0, _, _, m => 1 % m
  | fuel + 1, b, e, m =>
    if e = 0 then 1 % m
    else modPowStep (modPowAux fuel b (e / 2) m) b e m

/-- Rust `BigUint::modpow`: modular exponentiation `b ^ e mod m`. -/
def modPow (b e m : Nat) : Nat := modPowAux e b e m

/-- The `usize as u32` truncation performed by `BigUint::from(x as u32)` on
share indices and coefficient powers. -/
def u32 (x : Nat) : Nat := x % 4294967296

namespace Core

/-!
The SSS and VSS sources contain token-for-token identical evaluation and
Lagrange-reconstruction code, differing only in the modulus field used
(`self.prime` vs `self.params.q`) and the share field names (`x`/`y` vs
`id`/`value`).  The shared code is embedded once here, over an explicit
modulus `m` and shares as pairs `(x, y)`.
-/

/-- Rust `evaluate_polynomial` (both files): fold over `coefficients.iter().enumerate()`
with `term = coeff * x.modpow(power, m)` and accumulator `(acc + term) % m`. -/
def evaluate_polynomial (m : Nat) (coefficients : List Nat) (x : Nat) : Nat :=
  coefficients.enum.foldl (fun acc pc => (acc + pc.2 * modPow x (u32 pc.1) m) % m) 0

/-- The `diff` computation inside `calculate_lagrange_coefficient`:
`if x_j > x_i { (x_j - x_i) % m } else { (m + x_j - x_i) % m }`.
The second branch underflows (a `BigUint` panic) when `x_i > m + x_j`;
that case is `none`. -/
def diff_mod (m xi xj : Nat) : Option Nat :=
  if xj > xi then some ((xj - xi) % m)
  else if xi ≤ m + xj then some ((m + xj - xi) % m)
  else none

/-- The running-product fold of `calculate_lagrange_coefficient` over the
other shares' x coordinates: numerator `(num * x_j) % m`, denominator
`(den * diff) % m`, starting from `(1, 1)`.  `none` models the panic of an
underflowing `diff`. -/
def lagrange_prod (m xi : Nat) (xs : List Nat) : Option (Nat × Nat) :=
  xs.foldlM
    (fun nd xj => (diff_mod m xi xj).map fun d => (nd.1 * xj % m, nd.2 * d % m))
    (1, 1)

/-- Rust `mod_inverse` (both files): `None` for zero, otherwise Fermat inversion
`a.modpow(m - 2, m)`.  Computing `m - 2` underflows (panics) when `m < 2`,
modelled as `Except.error ()`. -/
def mod_inverse (m a : Nat) : Except Unit (Option Nat) :=
  if a = 0 then .ok none
  else if m < 2 then .error ()
  else .ok (some (modPow a (m - 2) m))

/-- Rust `calculate_lagrange_coefficient` (both files): accumulate numerator and
denominator over `shares.iter().enumerate().filter(|&(j, _)| i != j)`, then
`mod_inverse(den).map(|inv| num * inv % m)`. -/
def calculate_lagrange_coefficient (m : Nat) (share_i : Nat × Nat)
    (shares : List (Nat × Nat)) (i : Nat) : Except Unit (Option Nat) :=
  match lagrange_prod m share_i.1
      (((shares.enum.filter fun p => i != p.1).map fun p => p.2.1)) with
  | none => .error ()
  | some nd =>
    Except.map (Option.map fun den_inv => nd.1 * den_inv % m) (mod_inverse m nd.2)

/-- The reconstruction loop of `reconstruct_secret` (both files): for each
`(i, share_i)` of the selected shares, get the Lagrange coefficient (`?` /
`try_fold` propagates `None`; a panic propagates as `error`) and accumulate
`(acc + y_i * coeff) % m`. -/
def reconstruct_go (m : Nat) (shares : List (Nat × Nat)) :
    List (Nat × (Nat × Nat)) → Nat → Except Unit (Option Nat)
  | [], acc => .ok (some acc)
  | p :: rest, acc =>
    match calculate_lagrange_coefficient m p.2 shares p.1 with
    | .error e => .error e
    | .ok none => .ok none
    | .ok (some coeff) => reconstruct_go m shares rest ((acc + p.2.2 * coeff) % m)

/-- Rust `reconstruct_secret` (both files): `None` when fewer than `t` shares are
supplied, otherwise Lagrange interpolation at 0 over `shares[..t]`. -/
def reconstruct_secret (m t : Nat) (shares : List (Nat × Nat)) :
    Except Unit (Option Nat) :=
  if shares.length < t then .ok none
  else reconstruct_go m (shares.take t) (shares.take t).enum 0

end Core

namespace SSS

/-- Rust `Share` from `src/sss.rs`. -/
structure Share where
  x : Nat
  y : Nat
deriving DecidableEq

/-- Rust `SecretSharer` from `src/sss.rs`. -/
structure SecretSharer where
  prime : Nat
  threshold : Nat
  total_shares : Nat
deriving DecidableEq

/-- The fixed 521-bit Mersenne prime used by `SecretSharer::new`. -/
def P521 : Nat := 2 ^ 521 - 1

/-- Rust `SecretSharer::new`: stores the fixed prime and the two parameters,
with no validation of any kind. -/
def SecretSharer.new (threshold total_shares : Nat) : SecretSharer :=
  { prime := P521, threshold := threshold, total_shares := total_shares }

/-- Rust `SecretSharer::split_secret`.  The `threshold - 1` random coefficients
drawn from `rng.gen_biguint_range(0, prime)` are passed in as the list
`rand`; the polynomial is `secret % prime :: rand` and shares are its values
at `x = 1 ..= total_shares`. -/
def split_secret (s : SecretSharer) (secret : Nat) (rand : List Nat) : List Share :=
  let coefficients := secret % s.prime :: rand
  (List.range s.total_shares).map fun k =>
    { x := u32 (k + 1), y := Core.evaluate_polynomial s.prime coefficients (u32 (k + 1)) }

/-- Rust `SecretSharer::reconstruct_secret` (shares as `(x, y)` pairs feed the
shared core). -/
def reconstruct_secret (s : SecretSharer) (shares : List Share) :
    Except Unit (Option Nat) :=
  Core.reconstruct_secret s.prime s.threshold (shares.map fun sh => (sh.x, sh.y))

end SSS

namespace VSS

/-- Rust `Share` from `src/vss.rs`. -/
structure Share where
  id : Nat
  value : Nat
deriving DecidableEq

/-- Rust `VSSParams` from `src/vss.rs`. -/
structure VSSParams where
  p : Nat
  q : Nat
  g : Nat
  threshold : Nat
  total_shares : Nat
deriving DecidableEq

/-- Rust `FeldmanVSS` from `src/vss.rs` (the embedded `ThreadRng` is modelled
externally as a stream plus counter, see the module comment). -/
structure FeldmanVSS where
  params : VSSParams
deriving DecidableEq

/-- Rust `FeldmanVSS::new`: panics (`none`) iff `threshold > total_shares`. -/
def FeldmanVSS.new (p q g threshold total_shares : Nat) : Option FeldmanVSS :=
  if threshold > total_shares then none
  else some { params := { p := p, q := q, g := g, threshold := threshold,
                          total_shares := total_shares } }

/-- Rust `FeldmanVSS::generate_polynomial`: the secret followed by
`threshold - 1` random draws (values `rng ctr, …`). -/
def generate_polynomial (v : FeldmanVSS) (secret : Nat) (rng : Nat → Nat)
    (ctr : Nat) : List Nat :=
  secret :: (List.range (v.params.threshold - 1)).map fun i => rng (ctr + i)

/-- Rust `FeldmanVSS::generate_commitments`: `g.modpow(coeff, p)` for each
coefficient. -/
def generate_commitments (v : FeldmanVSS) (coefficients : List Nat) : List Nat :=
  coefficients.map fun coeff => modPow v.params.g coeff v.params.p

/-- Rust `FeldmanVSS::generate_shares`: polynomial values at `id = 1 ..= n`,
all arithmetic mod `q`. -/
def generate_shares (v : FeldmanVSS) (coefficients : List Nat) : List Share :=
  (List.range v.params.total_shares).map fun k =>
    { id := u32 (k + 1),
      value := Core.evaluate_polynomial v.params.q coefficients (u32 (k + 1)) }

/-- Rust `FeldmanVSS::split_secret`: domain check `secret >= q` first (before any
random draw), then polynomial, commitments and shares.  Returns the result
together with the advanced rng counter. -/
def split_secret (v : FeldmanVSS) (secret : Nat) (rng : Nat → Nat) (ctr : Nat) :
    Except String (List Share × List Nat) × Nat :=
  if v.params.q ≤ secret then (.error "Secret must be less than q", ctr)
  else
    let coefficients := generate_polynomial v secret rng ctr
    (.ok (generate_shares v coefficients, generate_commitments v coefficients),
      ctr + (v.params.threshold - 1))

/-- Rust `FeldmanVSS::compute_commitment_product`: fold of
`commitment.modpow(id.modpow(power, q), p)` with accumulator
`(acc * term) % p`, starting from 1. -/
def compute_commitment_product (v : FeldmanVSS) (share : Share)
    (commitments : List Nat) : Nat :=
  commitments.enum.foldl
    (fun acc pc =>
      acc * modPow pc.2 (modPow share.id (u32 pc.1) v.params.q) v.params.p % v.params.p)
    1

/-- Rust `FeldmanVSS::verify_share`: compare the commitment product against
`g.modpow(value, p)`. -/
def verify_share (v : FeldmanVSS) (share : Share) (commitments : List Nat) : Bool :=
  compute_commitment_product v share commitments == modPow v.params.g share.value v.params.p

/-- Rust `FeldmanVSS::reconstruct_secret` (shares as `(id, value)` pairs feed the
shared core, modulus `q`). -/
def reconstruct_secret (v : FeldmanVSS) (shares : List Share) :
    Except Unit (Option Nat) :=
  Core.reconstruct_secret v.params.q v.params.threshold
    (shares.map fun sh => (sh.id, sh.value))

end VSS

theorem modPowAux_eq (fuel : Nat) : ∀ b e m, e ≤ fuel → modPowAux fuel b e m = b ^ e % m := by
  induction fuel with
  | zero =>
    intro b e m he
    have : e = 0 := Nat.le_zero.mp he
    subst this
    simp [modPowAux]
  | succ fuel ih =>
    intro b e m he
    rw [modPowAux]
    by_cases h0 : e = 0
    · subst h0; simp
    · have hlt : e / 2 < e := Nat.div_lt_self (Nat.pos_of_ne_zero h0) one_lt_two
      have hfuel : e / 2 ≤ fuel := by omega
      rw [if_neg h0, ih b (e / 2) m hfuel, modPowStep]
      by_cases hpar : e % 2 = 0
      · have hsq : (b ^ (e / 2)) ^ 2 = b ^ e := by
          rw [← pow_mul]
          congr 1
          omega
        rw [if_pos hpar, ← Nat.pow_mod, hsq]
      · have hsq : (b ^ (e / 2)) ^ 2 * b = b ^ e := by
          rw [← pow_mul, ← pow_succ]
          congr 1
          omega
        rw [if_neg hpar, ← Nat.pow_mod, Nat.mul_comm _ b, Nat.mul_mod_mod,
          Nat.mul_comm b _, hsq]

theorem modPow_eq (b e m : Nat) : modPow b e m = b ^ e % m :=
  modPowAux_eq e b e m le_rfl

theorem modPow_one (e m : Nat) : modPow 1 e m = 1 % m := by
  rw [modPow_eq, Nat.one_pow]

namespace Core

theorem diff_mod_isSome (m xi xj : Nat) (hxi : xi < m) :
    ∃ d, diff_mod m xi xj = some d := by
  unfold diff_mod
  by_cases h : xj > xi
  · exact ⟨_, if_pos h⟩
  · have hle : xi ≤ m + xj := le_trans (Nat.le_of_lt hxi) (Nat.le_add_right m xj)
    rw [if_neg h, if_pos hle]
    exact ⟨_, rfl⟩

theorem lagrange_prod_isSome (m xi : Nat) (hxi : xi < m) (xs : List Nat) :
    ∀ nd0 : Nat × Nat, ∃ nd, xs.foldlM
      (fun nd xj => (diff_mod m xi xj).map fun d => (nd.1 * xj % m, nd.2 * d % m))
      nd0 = some nd := by
  induction xs with
  | nil => exact fun nd0 => ⟨nd0, rfl⟩
  | cons xj xs ih =>
    intro nd0
    obtain ⟨d, hd⟩ := diff_mod_isSome m xi xj hxi
    obtain ⟨nd, hnd⟩ := ih (nd0.1 * xj % m, nd0.2 * d % m)
    exact ⟨nd, by simp [List.foldlM, hd, hnd]⟩

theorem calculate_lagrange_coefficient_ok (m : Nat) (share_i : Nat × Nat)
    (shares : List (Nat × Nat)) (i : Nat) (hxi : share_i.1 < m) (hm : 2 ≤ m) :
    ∃ o, calculate_lagrange_coefficient m share_i shares i = .ok o := by
  unfold calculate_lagrange_coefficient lagrange_prod
  obtain ⟨nd, hnd⟩ := lagrange_prod_isSome m share_i.1 hxi
    (((shares.enum.filter fun p => i != p.1).map fun p => p.2.1)) (1, 1)
  rw [hnd]
  unfold mod_inverse
  by_cases hz : nd.2 = 0
  · exact ⟨none, by simp [hz, Except.map]⟩
  · exact ⟨some (nd.1 * modPow nd.2 (m - 2) m % m), by simp [hz, Nat.not_lt.mpr hm, Except.map]⟩

theorem reconstruct_go_ok (m : Nat) (lst : List (Nat × Nat)) (hm : 2 ≤ m)
    (hx : ∀ p ∈ lst, p.1 < m) :
    ∀ (todo : List (Nat × (Nat × Nat))) (acc : Nat), (∀ q ∈ todo, q.2 ∈ lst) →
      ∃ r, reconstruct_go m lst todo acc = .ok r := by
  intro todo
  induction todo with
  | nil => exact fun acc _ => ⟨some acc, rfl⟩
  | cons q rest ih =>
    intro acc hmem
    obtain ⟨o, ho⟩ := calculate_lagrange_coefficient_ok m q.2 lst q.1
      (hx q.2 (hmem q (List.mem_cons_self q rest))) hm
    rw [reconstruct_go, ho]
    match o with
    | none => exact ⟨none, rfl⟩
    | some coeff =>
      exact ih ((acc + q.2.2 * coeff) % m) fun r hr => hmem r (List.mem_cons_of_mem q hr)

theorem reconstruct_secret_ok (m t : Nat) (shares : List (Nat × Nat)) (hm : 2 ≤ m)
    (hx : ∀ p ∈ shares, p.1 < m) :
    ∃ r, reconstruct_secret m t shares = .ok r := by
  unfold reconstruct_secret
  by_cases hlen : shares.length < t
  · exact ⟨none, if_pos hlen⟩
  · rw [if_neg hlen]
    refine reconstruct_go_ok m (shares.take t) hm
      (fun p hp => hx p (List.take_subset t shares hp)) (shares.take t).enum 0 ?_
    intro q hq
    have := List.mem_enum_iff_get?.mp hq
    exact List.get?_mem this

theorem reconstruct_secret_take (m t : Nat) (l : List (Nat × Nat)) (h : t ≤ l.length) :
    reconstruct_secret m t l = reconstruct_secret m t (l.take t) := by
  unfold reconstruct_secret
  rw [if_neg (by omega), if_neg (by simp [List.length_take]; omega), List.take_take]
  simp

end Core

/-- Claim C6: for every parameter holder with threshold `t` and every input
share slice of length strictly less than `t`, `reconstruct_secret` returns an
absent result (`None`), in both SSS and VSS. -/
theorem C6_threshold_floor :
    (∀ (s : SSS.SecretSharer) (shares : List SSS.Share),
        shares.length < s.threshold → SSS.reconstruct_secret s shares = .ok none) ∧
    (∀ (v : VSS.FeldmanVSS) (shares : List VSS.Share),
        shares.length < v.params.threshold →
        VSS.reconstruct_secret v shares = .ok none) := by
  constructor
  · intro s shares h
    unfold SSS.reconstruct_secret Core.reconstruct_secret
    rw [if_pos (by simpa using h)]
  · intro v shares h
    unfold VSS.reconstruct_secret Core.reconstruct_secret
    rw [if_pos (by simpa using h)]

/-- Witness for C6 at a concrete input: two shares against threshold 3. -/
theorem C6_threshold_floor_witness :
    ([⟨1, 4⟩, ⟨2, 9⟩] : List SSS.Share).length < (SSS.SecretSharer.new 3 5).threshold ∧
    SSS.reconstruct_secret (SSS.SecretSharer.new 3 5) [⟨1, 4⟩, ⟨2, 9⟩] = .ok none :=
  ⟨by decide, C6_threshold_floor.1 (SSS.SecretSharer.new 3 5) [⟨1, 4⟩, ⟨2, 9⟩] (by decide)⟩

/-- Claim C4: reconstruction depends only on the first `t` entries of the
supplied share sequence: it equals reconstruction of `shares.take t`, and any
two sequences of length at least `t` with the same first `t` entries
reconstruct identically (so modifying or removing entries at position `t` or
later never changes the result); both SSS and VSS. -/
theorem C4_positional_selection :
    (∀ (s : SSS.SecretSharer) (shares : List SSS.Share),
        s.threshold ≤ shares.length →
        SSS.reconstruct_secret s shares =
          SSS.reconstruct_secret s (shares.take s.threshold)) ∧
    (∀ (s : SSS.SecretSharer) (shares1 shares2 : List SSS.Share),
        s.threshold ≤ shares1.length → s.threshold ≤ shares2.length →
        shares1.take s.threshold = shares2.take s.threshold →
        SSS.reconstruct_secret s shares1 = SSS.reconstruct_secret s shares2) ∧
    (∀ (v : VSS.FeldmanVSS) (shares : List VSS.Share),
        v.params.threshold ≤ shares.length →
        VSS.reconstruct_secret v shares =
          VSS.reconstruct_secret v (shares.take v.params.threshold)) ∧
    (∀ (v : VSS.FeldmanVSS) (shares1 shares2 : List VSS.Share),
        v.params.threshold ≤ shares1.length → v.params.threshold ≤ shares2.length →
        shares1.take v.params.threshold = shares2.take v.params.threshold →
        VSS.reconstruct_secret v shares1 = VSS.reconstruct_secret v shares2) := by
  have take1 : ∀ (s : SSS.SecretSharer) (shares : List SSS.Share),
      s.threshold ≤ shares.length →
      SSS.reconstruct_secret s shares =
        SSS.reconstruct_secret s (shares.take s.threshold) := by
    intro s shares h
    unfold SSS.reconstruct_secret
    rw [Core.reconstruct_secret_take _ _ _ (by simpa using h), List.map_take]
  have take2 : ∀ (v : VSS.FeldmanVSS) (shares : List VSS.Share),
      v.params.threshold ≤ shares.length →
      VSS.reconstruct_secret v shares =
        VSS.reconstruct_secret v (shares.take v.params.threshold) := by
    intro v shares h
    unfold VSS.reconstruct_secret
    rw [Core.reconstruct_secret_take _ _ _ (by simpa using h), List.map_take]
  refine ⟨take1, ?_, take2, ?_⟩
  · intro s shares1 shares2 h1 h2 he
    rw [take1 s shares1 h1, take1 s shares2 h2, he]
  · intro v shares1 shares2 h1 h2 he
    rw [take2 v shares1 h1, take2 v shares2 h2, he]

/-- Witness for C4 at a concrete input: appending a junk share beyond the
threshold position does not change reconstruction. -/
theorem C4_positional_selection_witness :
    (SSS.SecretSharer.new 1 2).threshold ≤ ([⟨1, 2⟩, ⟨3, 4⟩] : List SSS.Share).length ∧
    SSS.reconstruct_secret (SSS.SecretSharer.new 1 2) [⟨1, 2⟩, ⟨3, 4⟩] =
      SSS.reconstruct_secret (SSS.SecretSharer.new 1 2)
        ([⟨1, 2⟩, ⟨3, 4⟩].take (SSS.SecretSharer.new 1 2).threshold) :=
  ⟨by decide, C4_positional_selection.1 (SSS.SecretSharer.new 1 2) [⟨1, 2⟩, ⟨3, 4⟩] (by decide)⟩

/-- Claim C8: `FeldmanVSS::new` fails (panics) exactly when
`threshold > totalShares`, while `SecretSharer::new` performs no validation at
all and succeeds for every pair, merely storing the fixed prime and the two
parameters. -/
theorem C8_constructor_validation :
    (∀ p q g t n, VSS.FeldmanVSS.new p q g t n =
        if n < t then none else some ⟨⟨p, q, g, t, n⟩⟩) ∧
    (∀ t n, SSS.SecretSharer.new t n = ⟨SSS.P521, t, n⟩) :=
  ⟨fun _ _ _ _ _ => rfl, fun _ _ => rfl⟩

/-- Claim C9: when the VSS domain check fails (`secret ≥ q`),
`split_secret` returns the domain error with the random counter unchanged:
no random value is drawn (the result does not depend on `rng` at all), so a
subsequent call starts from exactly the same state. -/
theorem C9_split_error_atomic :
    ∀ (v : VSS.FeldmanVSS) (secret : Nat) (rng : Nat → Nat) (ctr : Nat),
      v.params.q ≤ secret →
      VSS.split_secret v secret rng ctr = (.error "Secret must be less than q", ctr) := by
  intro v secret rng ctr h
  unfold VSS.split_secret
  rw [if_pos h]

/-- Witness for C9 at a concrete input. -/
theorem C9_split_error_atomic_witness :
    (⟨⟨23, 11, 2, 3, 5⟩⟩ : VSS.FeldmanVSS).params.q ≤ 11 ∧
    VSS.split_secret ⟨⟨23, 11, 2, 3, 5⟩⟩ 11 (fun i => i + 7) 4 =
      (.error "Secret must be less than q", 4) :=
  ⟨by decide, C9_split_error_atomic ⟨⟨23, 11, 2, 3, 5⟩⟩ 11 (fun i => i + 7) 4 (by decide)⟩

/-- Lower bound on the fixed SSS prime, avoiding any huge-literal evaluation. -/
theorem P521_ge : 2 ^ 128 ≤ SSS.P521 := by
  have h : (2 : Nat) ^ 129 ≤ 2 ^ 521 := Nat.pow_le_pow_right (by norm_num) (by norm_num)
  have h2 : (2 : Nat) ^ 128 + 1 ≤ 2 ^ 129 := by norm_num
  unfold SSS.P521
  omega

/-- Counterexample to claim C2 as stated: reconstruction does not tolerate
arbitrary `BigUint` x values.  With threshold 2 and shares whose x values are
`P521 + 2` and `0`, the subtraction `prime + x_j - x_i` in
`calculate_lagrange_coefficient` underflows, which panics in `BigUint`
arithmetic (modelled as `Except.error ()`), instead of returning a secret or
an absent result. -/
theorem C2_counterexample :
    SSS.reconstruct_secret (SSS.SecretSharer.new 2 5)
      [⟨SSS.P521 + 2, 0⟩, ⟨0, 0⟩] = .error () := by
  have hA : ¬ ((0 : Nat) > SSS.P521 + 2) := by omega
  have hB : ¬ (SSS.P521 + 2 ≤ SSS.P521 + 0) := by omega
  simp [SSS.reconstruct_secret, SSS.SecretSharer.new, Core.reconstruct_secret,
    Core.reconstruct_go, Core.calculate_lagrange_coefficient, Core.lagrange_prod,
    Core.diff_mod, List.enum, List.enumFrom, List.foldlM, hA, hB]

/-- Claim C2, amended: reconstruction terminates without panicking — returning
either a secret or an absent result — provided every supplied x/id is a field
element (strictly below the working modulus) and, for VSS, the modulus `q` is
at least 2 (the SSS modulus is the fixed prime, which is at least 2).  The
unamended claim, quantifying over arbitrary `BigUint` shares, is refuted by
`C2_counterexample`. -/
theorem C2_amended_no_panic :
    (∀ (t n : Nat) (shares : List SSS.Share),
        (∀ sh ∈ shares, sh.x < SSS.P521) →
        ∃ r, SSS.reconstruct_secret (SSS.SecretSharer.new t n) shares = .ok r) ∧
    (∀ (v : VSS.FeldmanVSS) (shares : List VSS.Share),
        2 ≤ v.params.q → (∀ sh ∈ shares, sh.id < v.params.q) →
        ∃ r, VSS.reconstruct_secret v shares = .ok r) := by
  constructor
  · intro t n shares hx
    refine Core.reconstruct_secret_ok _ _ _ ?_ ?_
    · have := P521_ge
      have h2 : (2 : Nat) ≤ 2 ^ 128 := by norm_num
      show 2 ≤ SSS.P521
      omega
    · intro p hp
      simp only [List.mem_map] at hp
      obtain ⟨sh, hsh, rfl⟩ := hp
      exact hx sh hsh
  · intro v shares hq hx
    refine Core.reconstruct_secret_ok _ _ _ hq ?_
    intro p hp
    simp only [List.mem_map] at hp
    obtain ⟨sh, hsh, rfl⟩ := hp
    exact hx sh hsh

/-- Witness for the amended C2 at a concrete input. -/
theorem C2_amended_no_panic_witness :
    (∀ sh ∈ ([⟨1, 0⟩, ⟨2, 3⟩] : List SSS.Share), sh.x < SSS.P521) ∧
    ∃ r, SSS.reconstruct_secret (SSS.SecretSharer.new 2 5) [⟨1, 0⟩, ⟨2, 3⟩] = .ok r := by
  have hx : ∀ sh ∈ ([⟨1, 0⟩, ⟨2, 3⟩] : List SSS.Share), sh.x < SSS.P521 := by decide
  exact ⟨hx, C2_amended_no_panic.1 2 5 [⟨1, 0⟩, ⟨2, 3⟩] hx⟩

namespace Core

theorem foldlM_den_zero (m xi : Nat) (hxi_lt : xi < m) :
    ∀ (xs : List Nat) (nd0 : Nat × Nat),
      (nd0.2 = 0 ∨ ∃ xj ∈ xs, diff_mod m xi xj = some 0) →
      ∃ nd, xs.foldlM
        (fun nd xj => (diff_mod m xi xj).map fun d => (nd.1 * xj % m, nd.2 * d % m))
        nd0 = some nd ∧ nd.2 = 0 := by
  intro xs
  induction xs with
  | nil =>
    intro nd0 h
    rcases h with h | ⟨xj, hxj, _⟩
    · exact ⟨nd0, rfl, h⟩
    · cases hxj
  | cons x xs ih =>
    intro nd0 h
    obtain ⟨d, hd⟩ := diff_mod_isSome m xi x hxi_lt
    have step : ∀ h2 : (nd0.1 * x % m, nd0.2 * d % m).2 = 0 ∨
        ∃ xj ∈ xs, diff_mod m xi xj = some 0,
        ∃ nd, (x :: xs).foldlM
          (fun nd xj => (diff_mod m xi xj).map fun d => (nd.1 * xj % m, nd.2 * d % m))
          nd0 = some nd ∧ nd.2 = 0 := by
      intro h2
      obtain ⟨nd, hnd, hz⟩ := ih (nd0.1 * x % m, nd0.2 * d % m) h2
      exact ⟨nd, by simp [List.foldlM, hd, hnd], hz⟩
    rcases h with h0 | ⟨xj, hxj, hz⟩
    · exact step (Or.inl (by simp [h0]))
    · rcases List.mem_cons.mp hxj with rfl | hmem
      · have hd0 : d = 0 := by
          rw [hd] at hz
          exact (Option.some.inj hz)
        exact step (Or.inl (by simp [hd0]))
      · exact step (Or.inr ⟨xj, hmem, hz⟩)

theorem calc_dup_none (m : Nat) (shares : List (Nat × Nat)) (i j : Nat)
    (pi pj : Nat × Nat) (_hi : shares[i]? = some pi) (hj : shares[j]? = some pj)
    (hne : j ≠ i) (hdup : pj.1 = pi.1) (hxi_lt : pi.1 < m) :
    calculate_lagrange_coefficient m pi shares i = .ok none := by
  have hmem : pi.1 ∈ ((shares.enum.filter fun p => i != p.1).map fun p => p.2.1) := by
    refine List.mem_map.mpr ⟨(j, pj), ?_, hdup⟩
    refine List.mem_filter.mpr ⟨?_, ?_⟩
    · rw [List.mem_enum_iff_getElem?]
      exact hj
    · exact bne_iff_ne.mpr (Ne.symm hne)
  have hz : diff_mod m pi.1 pi.1 = some 0 := by
    unfold diff_mod
    rw [if_neg (lt_irrefl _), if_pos (by omega)]
    simp [Nat.add_sub_cancel]
  obtain ⟨nd, hnd, h2⟩ := foldlM_den_zero m pi.1 hxi_lt _ (1, 1)
    (Or.inr ⟨pi.1, hmem, hz⟩)
  unfold calculate_lagrange_coefficient lagrange_prod
  rw [hnd]
  unfold mod_inverse
  simp [h2, Except.map]

theorem go_none (m : Nat) (lst : List (Nat × Nat)) :
    ∀ (todo : List (Nat × (Nat × Nat))) (acc : Nat),
      (∀ q ∈ todo, ∃ o, calculate_lagrange_coefficient m q.2 lst q.1 = .ok o) →
      (∃ q ∈ todo, calculate_lagrange_coefficient m q.2 lst q.1 = .ok none) →
      reconstruct_go m lst todo acc = .ok none := by
  intro todo
  induction todo with
  | nil =>
    rintro acc _ ⟨q, hq, _⟩
    cases hq
  | cons r rest ih =>
    intro acc hsafe hhit
    obtain ⟨o, ho⟩ := hsafe r (List.mem_cons_self r rest)
    rw [reconstruct_go, ho]
    cases o with
    | none => rfl
    | some coeff =>
      rcases hhit with ⟨q, hq, hqnone⟩
      rcases List.mem_cons.mp hq with rfl | hqrest
      · rw [ho] at hqnone
        exact absurd (Except.ok.inj hqnone) (by simp)
      · exact ih _ (fun q' h' => hsafe q' (List.mem_cons_of_mem _ h')) ⟨q, hqrest, hqnone⟩

theorem mem_of_mem_enum {α : Type} {l : List α} {q : Nat × α} (h : q ∈ l.enum) :
    q.2 ∈ l := by
  rw [List.mem_enum_iff_getElem?] at h
  exact List.getElem?_mem h

theorem reconstruct_secret_dup_none (m t : Nat) (shares : List (Nat × Nat))
    (hlen : t ≤ shares.length)
    (hx : ∀ p ∈ shares.take t, p.1 < m)
    (hdup : ¬ ((shares.take t).map Prod.fst).Nodup) :
    reconstruct_secret m t shares = .ok none := by
  have hpair : ∃ (a b : Nat) (ha : a < ((shares.take t).map Prod.fst).length)
      (hb : b < ((shares.take t).map Prod.fst).length), a < b ∧
      ((shares.take t).map Prod.fst)[a] = ((shares.take t).map Prod.fst)[b] := by
    by_contra hcon
    push_neg at hcon
    exact hdup (List.pairwise_iff_getElem.mpr fun a b ha hb hab => hcon a b ha hb hab)
  obtain ⟨a, b, ha, hb, hab, heq⟩ := hpair
  have ha' : a < (shares.take t).length := by simpa using ha
  have hb' : b < (shares.take t).length := by simpa using hb
  have heq' : ((shares.take t)[a]).1 = ((shares.take t)[b]).1 := by
    simpa [List.getElem_map] using heq
  have hhit : calculate_lagrange_coefficient m ((shares.take t)[a]) (shares.take t) a
      = .ok none :=
    calc_dup_none m (shares.take t) a b ((shares.take t)[a]) ((shares.take t)[b])
      (by simp [List.getElem?_eq_getElem ha']) (by simp [List.getElem?_eq_getElem hb'])
      (by omega) heq'.symm (hx _ (List.getElem_mem ha'))
  unfold reconstruct_secret
  rw [if_neg (by omega)]
  apply go_none
  · intro q hq
    have hqmem : q.2 ∈ shares.take t := mem_of_mem_enum hq
    by_cases hm2 : 2 ≤ m
    · exact calculate_lagrange_coefficient_ok m q.2 (shares.take t) q.1 (hx q.2 hqmem) hm2
    · have hq? : (shares.take t)[q.1]? = some q.2 := List.mem_enum_iff_getElem?.mp hq
      have hxa : ((shares.take t)[a]).1 < m := hx _ (List.getElem_mem ha')
      have hxb : ((shares.take t)[b]).1 < m := hx _ (List.getElem_mem hb')
      have hxq : q.2.1 < m := hx _ hqmem
      by_cases hqa : q.1 = a
      · exact ⟨none, calc_dup_none m (shares.take t) q.1 b q.2 ((shares.take t)[b])
          hq? (by simp [List.getElem?_eq_getElem hb']) (by omega) (by omega) hxq⟩
      · exact ⟨none, calc_dup_none m (shares.take t) q.1 a q.2 ((shares.take t)[a])
          hq? (by simp [List.getElem?_eq_getElem ha']) (Ne.symm hqa) (by omega) hxq⟩
  · refine ⟨(a, (shares.take t)[a]), ?_, hhit⟩
    rw [List.mem_enum_iff_getElem?]
    simp [List.getElem?_eq_getElem ha']

end Core

/-- Counterexample to claim C3 as stated: a share with `x = 0` does not make
the Lagrange denominator zero (it zeroes a numerator), so reconstruction does
not fail: with threshold 2 and shares `(0, 5), (1, 9)` the code returns the
secret `5`, not an absent result. -/
theorem C3_counterexample :
    SSS.reconstruct_secret (SSS.SecretSharer.new 2 5) [⟨0, 5⟩, ⟨1, 9⟩] =
      .ok (some 5) := by
  have hm := P521_ge
  have e1 : (1 : Nat) % SSS.P521 = 1 := Nat.mod_eq_of_lt (by omega)
  have e5 : (5 : Nat) % SSS.P521 = 5 := Nat.mod_eq_of_lt (by omega)
  have eP : (SSS.P521 - 1) % SSS.P521 = SSS.P521 - 1 := Nat.mod_eq_of_lt (by omega)
  have hd : ¬ (SSS.P521 - 1 = 0) := by omega
  have hm2 : ¬ (SSS.P521 < 2) := by omega
  have h1le : (1 : Nat) ≤ SSS.P521 + 0 := by omega
  have h1le' : (1 : Nat) ≤ SSS.P521 := by omega
  have einv : modPow 1 (SSS.P521 - 2) SSS.P521 = 1 := (modPow_one _ _).trans e1
  simp [SSS.reconstruct_secret, SSS.SecretSharer.new, Core.reconstruct_secret,
    Core.reconstruct_go, Core.calculate_lagrange_coefficient, Core.lagrange_prod,
    Core.diff_mod, Core.mod_inverse, List.enum, List.enumFrom, List.foldlM,
    Except.map, e1, e5, eP, hd, hm2, h1le, h1le', einv]

/-- Claim C3, amended: if among the first `t` shares two shares have equal
x/id values, then the Lagrange denominator is 0 mod the modulus, the inverse
computation fails, and reconstruction returns an absent result — provided the
x/id values among the first `t` shares are field elements (below the working
modulus).  The "or some share has x equal to 0" disjunct of the original
claim is dropped: an `x = 0` share zeroes a Lagrange numerator, not the
denominator, and reconstruction succeeds (`C3_counterexample`). -/
theorem C3_amended_duplicate_x :
    (∀ (t n : Nat) (shares : List SSS.Share),
        t ≤ shares.length →
        (∀ sh ∈ shares.take t, sh.x < SSS.P521) →
        ¬ ((shares.take t).map SSS.Share.x).Nodup →
        SSS.reconstruct_secret (SSS.SecretSharer.new t n) shares = .ok none) ∧
    (∀ (v : VSS.FeldmanVSS) (shares : List VSS.Share),
        v.params.threshold ≤ shares.length →
        (∀ sh ∈ shares.take v.params.threshold, sh.id < v.params.q) →
        ¬ ((shares.take v.params.threshold).map VSS.Share.id).Nodup →
        VSS.reconstruct_secret v shares = .ok none) := by
  constructor
  · intro t n shares hlen hx hdup
    show Core.reconstruct_secret SSS.P521 t (shares.map fun sh => (sh.x, sh.y)) = .ok none
    apply Core.reconstruct_secret_dup_none
    · simpa using hlen
    · intro p hp
      rw [← List.map_take] at hp
      obtain ⟨sh, hsh, rfl⟩ := List.mem_map.mp hp
      exact hx sh hsh
    · have hmaps : (((shares.map fun sh => (sh.x, sh.y)).take t).map Prod.fst)
          = (shares.take t).map SSS.Share.x := by
        rw [← List.map_take, List.map_map]
        rfl
      rw [hmaps]
      exact hdup
  · intro v shares hlen hx hdup
    unfold VSS.reconstruct_secret
    apply Core.reconstruct_secret_dup_none
    · simpa using hlen
    · intro p hp
      rw [← List.map_take] at hp
      obtain ⟨sh, hsh, rfl⟩ := List.mem_map.mp hp
      exact hx sh hsh
    · have hmaps : (((shares.map fun sh => (sh.id, sh.value)).take v.params.threshold).map
          Prod.fst) = (shares.take v.params.threshold).map VSS.Share.id := by
        rw [← List.map_take, List.map_map]
        rfl
      rw [hmaps]
      exact hdup

/-- Witness for the amended C3 at a concrete input: two shares with the same
`x = 1` make reconstruction return an absent result. -/
theorem C3_amended_duplicate_x_witness :
    (2 ≤ ([⟨1, 4⟩, ⟨1, 6⟩] : List SSS.Share).length ∧
      (∀ sh ∈ ([⟨1, 4⟩, ⟨1, 6⟩] : List SSS.Share).take 2, sh.x < SSS.P521) ∧
      ¬ ((([⟨1, 4⟩, ⟨1, 6⟩] : List SSS.Share).take 2).map SSS.Share.x).Nodup) ∧
    SSS.reconstruct_secret (SSS.SecretSharer.new 2 5) [⟨1, 4⟩, ⟨1, 6⟩] = .ok none :=
  ⟨⟨by decide, by decide, by decide⟩,
    C3_amended_duplicate_x.1 2 5 [⟨1, 4⟩, ⟨1, 6⟩] (by decide) (by decide) (by decide)⟩

/-- Counterexample to claim C7 as stated: with threshold 0 (accepted by the
constructor since 0 ≤ totalShares) and secret 7 < q = 11, `split_secret`
returns Ok with 1 commitment (`g^secret mod p = 2^7 mod 23 = 13`), not
`threshold = 0` commitments: the coefficient vector always contains the
secret, so there are `max threshold 1` commitments. -/
theorem C7_counterexample :
    (VSS.split_secret ⟨⟨23, 11, 2, 0, 1⟩⟩ 7 (fun _ => 0) 0).1 = .ok ([⟨1, 7⟩], [13]) ∧
    ([13] : List Nat).length ≠ (⟨⟨23, 11, 2, 0, 1⟩⟩ : VSS.FeldmanVSS).params.threshold := by
  constructor
  · rfl
  · decide

/-- Claim C7, amended: `split_secret` returns the recoverable domain error
exactly when `secret ≥ q`, and for every `secret < q` returns Ok with `n`
shares and `max(threshold, 1)` commitments (1 commitment, not 0, when
threshold = 0).  Stated for holders with `p ≥ 1`, since `BigUint::modpow`
(used to build each commitment) requires a nonzero modulus. -/
theorem C7_amended_domain_guard :
    ∀ (v : VSS.FeldmanVSS) (secret : Nat) (rng : Nat → Nat) (ctr : Nat),
      1 ≤ v.params.p →
      (((VSS.split_secret v secret rng ctr).1 = .error "Secret must be less than q")
          ↔ v.params.q ≤ secret) ∧
      (secret < v.params.q →
        ∃ shs comms, (VSS.split_secret v secret rng ctr).1 = .ok (shs, comms) ∧
          shs.length = v.params.total_shares ∧
          comms.length = max v.params.threshold 1) := by
  intro v secret rng ctr _hp
  by_cases hq : v.params.q ≤ secret
  · constructor
    · rw [VSS.split_secret, if_pos hq]
      simp [hq]
    · intro hlt
      omega
  · constructor
    · rw [VSS.split_secret, if_neg hq]
      simp [hq]
    · intro _
      refine ⟨VSS.generate_shares v (VSS.generate_polynomial v secret rng ctr),
        VSS.generate_commitments v (VSS.generate_polynomial v secret rng ctr),
        ?_, ?_, ?_⟩
      · simp [VSS.split_secret, hq]
      · simp [VSS.generate_shares]
      · simp [VSS.generate_commitments, VSS.generate_polynomial]
        omega

/-- Witness for the amended C7 at a concrete input. -/
theorem C7_amended_domain_guard_witness :
    ∃ shs comms,
      (VSS.split_secret ⟨⟨23, 11, 2, 3, 5⟩⟩ 7 (fun _ => 0) 0).1 = .ok (shs, comms) ∧
      shs.length = 5 ∧ comms.length = max 3 1 :=
  (C7_amended_domain_guard ⟨⟨23, 11, 2, 3, 5⟩⟩ 7 (fun _ => 0) 0 (by decide)).2 (by decide)

/-- Counterexample to claim C10 as stated: the degenerate holder with
`q = 0` and `threshold = 0` is accepted by the constructor, and
`reconstruct_secret` on it returns the value 0, which is not strictly less
than the working modulus `q = 0`. -/
theorem C10_counterexample :
    VSS.FeldmanVSS.new 0 0 0 0 0 = some ⟨⟨0, 0, 0, 0, 0⟩⟩ ∧
    VSS.reconstruct_secret ⟨⟨0, 0, 0, 0, 0⟩⟩ [] = .ok (some 0) ∧
    ¬ ((0 : Nat) < (⟨⟨0, 0, 0, 0, 0⟩⟩ : VSS.FeldmanVSS).params.q) :=
  ⟨rfl, rfl, by decide⟩

/-- Claim C10, amended: whenever reconstruction returns a value, that value
is strictly below the working modulus — unconditionally for SSS (whose
modulus is the fixed prime), and for VSS provided the modulus `q` is
positive (the counterexample `q = 0, threshold = 0` is the only way to
return a value outside the field). -/
theorem C10_amended_range :
    (∀ (t n : Nat) (shares : List SSS.Share) (w : Nat),
        SSS.reconstruct_secret (SSS.SecretSharer.new t n) shares = .ok (some w) →
        w < SSS.P521) ∧
    (∀ (v : VSS.FeldmanVSS) (shares : List VSS.Share) (w : Nat),
        1 ≤ v.params.q →
        VSS.reconstruct_secret v shares = .ok (some w) → w < v.params.q) := by
  have go_lt : ∀ (m : Nat) (lst : List (Nat × Nat)), 1 ≤ m →
      ∀ (todo : List (Nat × (Nat × Nat))) (acc w : Nat), acc < m →
        Core.reconstruct_go m lst todo acc = .ok (some w) → w < m := by
    intro m lst hm todo
    induction todo with
    | nil =>
      intro acc w hacc h
      obtain rfl : acc = w := Option.some.inj (Except.ok.inj h)
      exact hacc
    | cons r rest ih =>
      intro acc w hacc h
      rw [Core.reconstruct_go] at h
      cases hcalc : Core.calculate_lagrange_coefficient m r.2 lst r.1 with
      | error e => rw [hcalc] at h; cases h
      | ok o =>
        rw [hcalc] at h
        cases o with
        | none => simp at h
        | some coeff => exact ih _ w (Nat.mod_lt _ (by omega)) h
  have core_lt : ∀ (m t : Nat) (shares : List (Nat × Nat)) (w : Nat), 1 ≤ m →
      Core.reconstruct_secret m t shares = .ok (some w) → w < m := by
    intro m t shares w hm h
    rw [Core.reconstruct_secret] at h
    by_cases hlen : shares.length < t
    · rw [if_pos hlen] at h
      simp at h
    · rw [if_neg hlen] at h
      exact go_lt m _ hm _ 0 w (by omega) h
  constructor
  · intro t n shares w h
    have hm := P521_ge
    exact core_lt SSS.P521 t _ w (by omega) h
  · intro v shares w hq h
    exact core_lt v.params.q v.params.threshold _ w hq h

/-- Witness for the amended C10 at a concrete input: an SSS holder with
threshold 0 returns the value 0, which is below the fixed prime. -/
theorem C10_amended_range_witness :
    SSS.reconstruct_secret (SSS.SecretSharer.new 0 0) [] = .ok (some 0) ∧
    0 < SSS.P521 :=
  ⟨rfl, C10_amended_range.1 0 0 [] 0 rfl⟩

theorem modPow_cast (b e m : Nat) : ((modPow b e m : Nat) : ZMod m) = (b : ZMod m) ^ e := by
  rw [modPow_eq]
  push_cast [ZMod.natCast_mod]
  ring

namespace Core

theorem foldl_mod_add_cast (m : Nat) {α : Type} (g : α → Nat) :
    ∀ (l : List α) (a : Nat),
      ((l.foldl (fun acc e => (acc + g e) % m) a : Nat) : ZMod m)
        = (a : ZMod m) + (l.map fun e => ((g e : Nat) : ZMod m)).sum := by
  intro l
  induction l with
  | nil => intro a; simp
  | cons e l ih =>
    intro a
    rw [List.foldl_cons, ih, List.map_cons, List.sum_cons]
    push_cast [ZMod.natCast_mod]
    ring

theorem enumFrom_map_sum {α M : Type} [AddCommMonoid M] (G : Nat → α → M) (d : α) :
    ∀ (l : List α) (k : Nat),
      ((l.enumFrom k).map fun q => G q.1 q.2).sum
        = ∑ j in Finset.range l.length, G (k + j) (l.getD j d) := by
  intro l
  induction l with
  | nil => intro k; simp
  | cons a l ih =>
    intro k
    rw [List.enumFrom_cons, List.map_cons, List.sum_cons, ih (k + 1),
      List.length_cons, Finset.sum_range_succ']
    have h1 : ∀ j, G (k + 1 + j) (l.getD j d) = G (k + (j + 1)) ((a :: l).getD (j + 1) d) := by
      intro j
      have : k + 1 + j = k + (j + 1) := by omega
      rw [this]
      rfl
    rw [Finset.sum_congr rfl fun j _ => h1 j]
    have h0 : G (k + 0) ((a :: l).getD 0 d) = G k a := by
      rw [Nat.add_zero]
      rfl
    rw [h0, add_comm]

theorem evaluate_polynomial_cast (m : Nat) (c : List Nat) (x : Nat)
    (hc32 : c.length ≤ 4294967296) :
    ((evaluate_polynomial m c x : Nat) : ZMod m)
      = ∑ j in Finset.range c.length, ((c.getD j 0 : Nat) : ZMod m) * (x : ZMod m) ^ j := by
  rw [evaluate_polynomial, List.enum, foldl_mod_add_cast]
  rw [show ((List.enumFrom 0 c).map fun e => ((e.2 * modPow x (u32 e.1) m : Nat) : ZMod m))
      = ((List.enumFrom 0 c).map fun q => ((q.2 : ZMod m) * (x : ZMod m) ^ u32 q.1)) from
    List.map_congr_left fun q _ => by push_cast [modPow_cast]; ring]
  rw [enumFrom_map_sum (fun j cj => ((cj : Nat) : ZMod m) * (x : ZMod m) ^ u32 j) 0 c 0]
  rw [Nat.cast_zero, zero_add]
  refine Finset.sum_congr rfl fun j hj => ?_
  have hj' : j < c.length := Finset.mem_range.mp hj
  have hu : u32 (0 + j) = j := by
    unfold u32
    omega
  rw [hu]

theorem diff_mod_cast_eq (m xi xj d : Nat) (hxi : xi < m)
    (h : diff_mod m xi xj = some d) :
    ((d : Nat) : ZMod m) = (xj : ZMod m) - (xi : ZMod m) := by
  unfold diff_mod at h
  by_cases hgt : xj > xi
  · rw [if_pos hgt] at h
    obtain rfl : (xj - xi) % m = d := Option.some.inj h
    rw [ZMod.natCast_mod, Nat.cast_sub (Nat.le_of_lt hgt)]
  · rw [if_neg hgt, if_pos (le_trans (Nat.le_of_lt hxi) (Nat.le_add_right m xj))] at h
    obtain rfl : (m + xj - xi) % m = d := Option.some.inj h
    rw [ZMod.natCast_mod, Nat.cast_sub (le_trans (Nat.le_of_lt hxi) (Nat.le_add_right m xj))]
    push_cast [ZMod.natCast_self]
    ring

theorem lagrange_prod_eq (m xi : Nat) (hxi : xi < m) :
    ∀ (xs : List Nat) (a b : Nat),
      ∃ nd, xs.foldlM
          (fun nd xj => (diff_mod m xi xj).map fun d => (nd.1 * xj % m, nd.2 * d % m))
          (a, b) = some nd ∧
        ((nd.1 : Nat) : ZMod m) = (a : ZMod m) * ((xs.map fun x => ((x : Nat) : ZMod m)).prod) ∧
        ((nd.2 : Nat) : ZMod m)
          = (b : ZMod m) * ((xs.map fun x : Nat => ((x : ZMod m) - (xi : ZMod m))).prod) := by
  intro xs
  induction xs with
  | nil =>
    intro a b
    exact ⟨(a, b), rfl, by simp, by simp⟩
  | cons x xs ih =>
    intro a b
    obtain ⟨d, hd⟩ := diff_mod_isSome m xi x hxi
    obtain ⟨nd, hnd, h1, h2⟩ := ih (a * x % m) (b * d % m)
    refine ⟨nd, by simp [List.foldlM, hd, hnd], ?_, ?_⟩
    · rw [h1, List.map_cons, List.prod_cons]
      push_cast [ZMod.natCast_mod]
      ring
    · rw [h2, List.map_cons, List.prod_cons]
      rw [show ((b * d % m : Nat) : ZMod m) = (b : ZMod m) * ((d : Nat) : ZMod m) by
        push_cast [ZMod.natCast_mod]; ring]
      rw [diff_mod_cast_eq m xi x d hxi hd]
      ring

theorem enumFrom_filter_map_prod {α M : Type} [CommMonoid M] (G : Nat → α → M) (d : α)
    (i : Nat) :
    ∀ (l : List α) (k : Nat),
      (((l.enumFrom k).filter fun p => i != p.1).map fun p => G p.1 p.2).prod
        = ∏ j in Finset.range l.length,
            (if k + j = i then 1 else G (k + j) (l.getD j d)) := by
  intro l
  induction l with
  | nil => intro k; simp
  | cons a l ih =>
    intro k
    rw [List.enumFrom_cons, List.length_cons, Finset.prod_range_succ']
    have hshift : ∀ j, (if k + 1 + j = i then 1 else G (k + 1 + j) (l.getD j d))
        = (if k + (j + 1) = i then 1 else G (k + (j + 1)) ((a :: l).getD (j + 1) d)) := by
      intro j
      have : k + 1 + j = k + (j + 1) := by omega
      rw [this]
      rfl
    rw [← Finset.prod_congr rfl fun j _ => hshift j, ← ih (k + 1)]
    by_cases hk : k = i
    · have hfilter : (i != k) = false := by
        simp [hk]
      rw [List.filter_cons]
      simp only [hfilter, Bool.false_eq_true, if_false]
      rw [if_pos (by omega : k + 0 = i), mul_one]
    · have hfilter : (i != k) = true := by
        simp [bne_iff_ne]
        exact fun h => hk h.symm
      rw [List.filter_cons]
      simp only [hfilter, if_true]
      rw [List.map_cons, List.prod_cons, if_neg (by omega : ¬ k + 0 = i)]
      rw [show (a :: l).getD 0 d = a from rfl, show k + 0 = k from rfl]
      rw [mul_comm]

theorem range_if_prod_erase {M : Type} [CommMonoid M] (n i : Nat) (F : Nat → M) :
    ∏ j in Finset.range n, (if j = i then 1 else F j)
      = ∏ j in (Finset.range n).erase i, F j := by
  have h1 : ∏ x in (Finset.range n).erase i, (if x = i then 1 else F x)
      = ∏ x in Finset.range n, (if x = i then 1 else F x) :=
    Finset.prod_erase (Finset.range n) (if_pos rfl)
  rw [← h1]
  exact Finset.prod_congr rfl fun j hj => if_neg (Finset.ne_of_mem_erase hj)

theorem zmod_pow_sub_two {p : Nat} [Fact p.Prime] (a : ZMod p) (ha : a ≠ 0) :
    a ^ (p - 2) = a⁻¹ := by
  have hp2 : 2 ≤ p := (Fact.out : p.Prime).two_le
  have h1 : a ^ (p - 2) * a = 1 := by
    rw [← pow_succ]
    have h : p - 2 + 1 = p - 1 := by omega
    rw [h]
    exact ZMod.pow_card_sub_one_eq_one ha
  exact eq_inv_of_mul_eq_one_left h1

theorem calc_coeff_value (m : Nat) (hm : m.Prime) (lst : List (Nat × Nat)) (i : Nat)
    (hi : i < lst.length) (hx : ∀ p ∈ lst, p.1 < m)
    (hnodup : (lst.map Prod.fst).Nodup) :
    ∃ L, calculate_lagrange_coefficient m (lst.getD i (0, 0)) lst i = .ok (some L) ∧
      (L : ZMod m)
        = (∏ k in (Finset.range lst.length).erase i,
              (((lst.getD k (0, 0)).1 : Nat) : ZMod m))
          * (∏ k in (Finset.range lst.length).erase i,
              (((lst.getD k (0, 0)).1 : ZMod m) - ((lst.getD i (0, 0)).1 : ZMod m)))⁻¹ := by
  haveI : Fact m.Prime := ⟨hm⟩
  have hm2 : 2 ≤ m := hm.two_le
  have hximem : lst.getD i (0, 0) ∈ lst := by
    rw [List.getD_eq_getElem lst (0, 0) hi]
    exact lst.getElem_mem hi
  have hxi : (lst.getD i (0, 0)).1 < m := hx _ hximem
  obtain ⟨nd, hnd_eq, h1, h2⟩ := lagrange_prod_eq m (lst.getD i (0, 0)).1 hxi
    ((lst.enum.filter fun p => i != p.1).map fun p => p.2.1) 1 1
  have hnum' : ((((lst.enum.filter fun p => i != p.1).map fun p => p.2.1).map
        fun x : Nat => ((x : Nat) : ZMod m)).prod)
      = ∏ k in (Finset.range lst.length).erase i, (((lst.getD k (0, 0)).1 : Nat) : ZMod m) := by
    have h := enumFrom_filter_map_prod
      (fun (_ : Nat) (pr : Nat × Nat) => ((pr.1 : Nat) : ZMod m)) (0, 0) i lst 0
    calc ((((lst.enum.filter fun p => i != p.1).map fun p => p.2.1).map
          fun x : Nat => ((x : Nat) : ZMod m)).prod)
        = ∏ j in Finset.range lst.length,
            (if 0 + j = i then 1 else (((lst.getD j (0, 0)).1 : Nat) : ZMod m)) := by
          rw [List.map_map]
          exact h
      _ = ∏ j in Finset.range lst.length,
            (if j = i then 1 else (((lst.getD j (0, 0)).1 : Nat) : ZMod m)) :=
          Finset.prod_congr rfl fun j _ => by rw [Nat.zero_add]
      _ = _ := range_if_prod_erase lst.length i _
  have hden' : ((((lst.enum.filter fun p => i != p.1).map fun p => p.2.1).map
        fun x : Nat => ((x : ZMod m) - (((lst.getD i (0, 0)).1 : Nat) : ZMod m))).prod)
      = ∏ k in (Finset.range lst.length).erase i,
          (((lst.getD k (0, 0)).1 : ZMod m) - ((lst.getD i (0, 0)).1 : ZMod m)) := by
    have h := enumFrom_filter_map_prod
      (fun (_ : Nat) (pr : Nat × Nat) => ((pr.1 : ZMod m) - ((lst.getD i (0, 0)).1 : ZMod m)))
      (0, 0) i lst 0
    calc ((((lst.enum.filter fun p => i != p.1).map fun p => p.2.1).map
          fun x : Nat => ((x : ZMod m) - (((lst.getD i (0, 0)).1 : Nat) : ZMod m))).prod)
        = ∏ j in Finset.range lst.length,
            (if 0 + j = i then 1 else
              (((lst.getD j (0, 0)).1 : ZMod m) - ((lst.getD i (0, 0)).1 : ZMod m))) := by
          rw [List.map_map]
          exact h
      _ = ∏ j in Finset.range lst.length,
            (if j = i then 1 else
              (((lst.getD j (0, 0)).1 : ZMod m) - ((lst.getD i (0, 0)).1 : ZMod m))) :=
          Finset.prod_congr rfl fun j _ => by rw [Nat.zero_add]
      _ = _ := range_if_prod_erase lst.length i _
  have hden_ne : ((nd.2 : Nat) : ZMod m) ≠ 0 := by
    rw [h2, hden']
    rw [Nat.cast_one, one_mul]
    rw [Finset.prod_ne_zero_iff]
    intro k hk
    have hk' : k < lst.length := Finset.mem_range.mp (Finset.mem_of_mem_erase hk)
    have hki : k ≠ i := Finset.ne_of_mem_erase hk
    refine sub_ne_zero.mpr fun hcast => hki ?_
    have hkx : (lst.getD k (0, 0)).1 < m := by
      rw [List.getD_eq_getElem lst (0, 0) hk']
      exact hx _ (lst.getElem_mem hk')
    have hnat : (lst.getD k (0, 0)).1 = (lst.getD i (0, 0)).1 := by
      have hmodeq := (ZMod.natCast_eq_natCast_iff _ _ _).mp hcast
      have := hmodeq
      unfold Nat.ModEq at this
      rw [Nat.mod_eq_of_lt hkx, Nat.mod_eq_of_lt hxi] at this
      exact this
    have hk2 : k < (lst.map Prod.fst).length := by simpa using hk'
    have hi2 : i < (lst.map Prod.fst).length := by simpa using hi
    have heq2 : (lst.map Prod.fst)[k] = (lst.map Prod.fst)[i] := by
      rw [List.getElem_map, List.getElem_map,
        ← List.getD_eq_getElem lst (0, 0) hk', ← List.getD_eq_getElem lst (0, 0) hi]
      exact hnat
    exact (List.Nodup.getElem_inj_iff hnodup).mp heq2
  have hnd2 : nd.2 ≠ 0 := by
    intro h0
    apply hden_ne
    rw [h0]
    simp
  refine ⟨nd.1 * modPow nd.2 (m - 2) m % m, ?_, ?_⟩
  · unfold calculate_lagrange_coefficient lagrange_prod
    rw [hnd_eq]
    unfold mod_inverse
    simp [hnd2, Except.map, Nat.not_lt.mpr hm2]
  · rw [ZMod.natCast_mod, Nat.cast_mul, modPow_cast]
    rw [zmod_pow_sub_two _ hden_ne, h1, h2, hnum', hden']
    rw [Nat.cast_one, one_mul, one_mul]

theorem reconstruct_go_sum (m : Nat) (lst : List (Nat × Nat)) (mathL : Nat → ZMod m)
    (hm : 1 ≤ m) :
    ∀ (todo : List (Nat × (Nat × Nat))) (acc : Nat), acc < m →
      (∀ q ∈ todo, ∃ L, calculate_lagrange_coefficient m q.2 lst q.1 = .ok (some L) ∧
          ((L : Nat) : ZMod m) = mathL q.1) →
      ∃ S, reconstruct_go m lst todo acc = .ok (some S) ∧ S < m ∧
        ((S : Nat) : ZMod m) = (acc : ZMod m)
          + ((todo.map fun q => ((q.2.2 : Nat) : ZMod m) * mathL q.1).sum) := by
  intro todo
  induction todo with
  | nil =>
    intro acc hacc _
    exact ⟨acc, rfl, hacc, by simp⟩
  | cons q rest ih =>
    intro acc hacc h
    obtain ⟨L, hcalc, hLv⟩ := h q (List.mem_cons_self q rest)
    obtain ⟨S, hS, hSlt, hcast⟩ := ih ((acc + q.2.2 * L) % m)
      (Nat.mod_lt _ (by omega)) (fun r hr => h r (List.mem_cons_of_mem q hr))
    refine ⟨S, ?_, hSlt, ?_⟩
    · rw [reconstruct_go, hcalc]
      exact hS
    · rw [hcast, List.map_cons, List.sum_cons]
      rw [show (((acc + q.2.2 * L) % m : Nat) : ZMod m)
          = (acc : ZMod m) + ((q.2.2 : Nat) : ZMod m) * ((L : Nat) : ZMod m) by
        push_cast [ZMod.natCast_mod]; ring]
      rw [hLv]
      ring

theorem sum_lagrange_eval_zero (m : Nat) (hm : m.Prime) (t : Nat)
    (v : Nat → ZMod m) (hvinj : Set.InjOn v (Finset.range t))
    (r : Nat → ZMod m) (f : Polynomial (ZMod m)) (hdeg : f.degree < t)
    (hr : ∀ j < t, r j = f.eval (v j)) :
    ∑ j in Finset.range t, r j *
        ((∏ k in (Finset.range t).erase j, v k) *
          (∏ k in (Finset.range t).erase j, (v k - v j))⁻¹)
      = f.eval 0 := by
  haveI : Fact m.Prime := ⟨hm⟩
  have hf : f = Lagrange.interpolate (Finset.range t) v fun i => f.eval (v i) :=
    Lagrange.eq_interpolate hvinj (by simpa using hdeg)
  have heval : f.eval 0 = ∑ j in Finset.range t, f.eval (v j) *
      ∏ k in (Finset.range t).erase j, ((v j - v k)⁻¹ * (0 - v k)) := by
    conv_lhs => rw [hf]
    rw [Lagrange.interpolate_apply, Polynomial.eval_finset_sum]
    refine Finset.sum_congr rfl fun j _ => ?_
    rw [Polynomial.eval_mul, Polynomial.eval_C]
    congr 1
    show Polynomial.eval 0 (∏ k in (Finset.range t).erase j,
      Lagrange.basisDivisor (v j) (v k)) = _
    rw [Polynomial.eval_prod]
    refine Finset.prod_congr rfl fun k _ => ?_
    show Polynomial.eval 0 (Polynomial.C (v j - v k)⁻¹
      * (Polynomial.X - Polynomial.C (v k))) = _
    rw [Polynomial.eval_mul, Polynomial.eval_C, Polynomial.eval_sub,
      Polynomial.eval_X, Polynomial.eval_C]
  rw [heval]
  refine Finset.sum_congr rfl fun j hj => ?_
  rw [hr j (Finset.mem_range.mp hj)]
  congr 1
  have hfac : ∀ a b : ZMod m, (a - b)⁻¹ * (0 - b) = b * (b - a)⁻¹ := by
    intro a b
    rcases eq_or_ne a b with rfl | hab
    · simp
    · have h1 : a - b ≠ 0 := sub_ne_zero.mpr hab
      have h2 : b - a ≠ 0 := sub_ne_zero.mpr (Ne.symm hab)
      field_simp
      ring
  symm
  calc ∏ k in (Finset.range t).erase j, ((v j - v k)⁻¹ * (0 - v k))
      = ∏ k in (Finset.range t).erase j, (v k * (v k - v j)⁻¹) :=
        Finset.prod_congr rfl fun k _ => hfac (v j) (v k)
    _ = (∏ k in (Finset.range t).erase j, v k)
          * ∏ k in (Finset.range t).erase j, (v k - v j)⁻¹ := Finset.prod_mul_distrib
    _ = (∏ k in (Finset.range t).erase j, v k)
          * (∏ k in (Finset.range t).erase j, (v k - v j))⁻¹ := by
        rw [Finset.prod_inv_distrib]

theorem enum_mem_spec {α : Type} {l : List α} {q : Nat × α} (h : q ∈ l.enum) :
    ∃ hlt : q.1 < l.length, q.2 = l[q.1] := by
  rw [List.mem_enum_iff_getElem?] at h
  have hlt : q.1 < l.length := by
    by_contra hcon
    rw [List.getElem?_eq_none (by omega)] at h
    cases h
  rw [List.getElem?_eq_getElem hlt] at h
  exact ⟨hlt, (Option.some.inj h).symm⟩

theorem cast_injOn_of_nodup_fst (m : Nat) (lst : List (Nat × Nat))
    (hx : ∀ p ∈ lst, p.1 < m) (hnodup : (lst.map Prod.fst).Nodup) :
    Set.InjOn (fun j => (((lst.getD j (0, 0)).1 : Nat) : ZMod m))
      (Finset.range lst.length) := by
  intro a ha b hb hab
  have ha' : a < lst.length := by simpa using ha
  have hb' : b < lst.length := by simpa using hb
  have hax : (lst.getD a (0, 0)).1 < m := by
    rw [List.getD_eq_getElem lst (0, 0) ha']
    exact hx _ (lst.getElem_mem ha')
  have hbx : (lst.getD b (0, 0)).1 < m := by
    rw [List.getD_eq_getElem lst (0, 0) hb']
    exact hx _ (lst.getElem_mem hb')
  have hnat : (lst.getD a (0, 0)).1 = (lst.getD b (0, 0)).1 := by
    have hmodeq := (ZMod.natCast_eq_natCast_iff _ _ _).mp hab
    unfold Nat.ModEq at hmodeq
    rw [Nat.mod_eq_of_lt hax, Nat.mod_eq_of_lt hbx] at hmodeq
    exact hmodeq
  have ha2 : a < (lst.map Prod.fst).length := by simpa using ha'
  have hb2 : b < (lst.map Prod.fst).length := by simpa using hb'
  have heq2 : (lst.map Prod.fst)[a] = (lst.map Prod.fst)[b] := by
    rw [List.getElem_map, List.getElem_map,
      ← List.getD_eq_getElem lst (0, 0) ha', ← List.getD_eq_getElem lst (0, 0) hb']
    exact hnat
  exact (List.Nodup.getElem_inj_iff hnodup).mp heq2

theorem reconstruct_exact (m : Nat) (hm : m.Prime) (c : List Nat)
    (hc32 : c.length ≤ 4294967296)
    (lst : List (Nat × Nat)) (hlen : lst.length = c.length) (ht : 1 ≤ c.length)
    (hmem : ∀ p ∈ lst, p.1 < m ∧ p.2 = evaluate_polynomial m c p.1)
    (hnodup : (lst.map Prod.fst).Nodup) :
    reconstruct_secret m lst.length lst = .ok (some (c.getD 0 0 % m)) := by
  have hm2 : 2 ≤ m := hm.two_le
  have hx : ∀ p ∈ lst, p.1 < m := fun p hp => (hmem p hp).1
  set t := lst.length with htdef
  set f : Polynomial (ZMod m) := ∑ j in Finset.range t,
    Polynomial.C ((c.getD j 0 : Nat) : ZMod m) * Polynomial.X ^ j with hfdef
  set v : Nat → ZMod m := fun j => (((lst.getD j (0, 0)).1 : Nat) : ZMod m) with hvdef
  set mathL : Nat → ZMod m := fun j =>
    (∏ k in (Finset.range t).erase j, (((lst.getD k (0, 0)).1 : Nat) : ZMod m))
      * (∏ k in (Finset.range t).erase j,
          (((lst.getD k (0, 0)).1 : ZMod m) - ((lst.getD j (0, 0)).1 : ZMod m)))⁻¹
    with hmathLdef
  have hfeval : ∀ z : ZMod m, f.eval z
      = ∑ k in Finset.range t, ((c.getD k 0 : Nat) : ZMod m) * z ^ k := by
    intro z
    rw [hfdef, Polynomial.eval_finset_sum]
    exact Finset.sum_congr rfl fun k _ => by
      rw [Polynomial.eval_mul, Polynomial.eval_C, Polynomial.eval_pow, Polynomial.eval_X]
  have hdeg : f.degree < (t : WithBot Nat) := by
    rw [hfdef]
    refine lt_of_le_of_lt (Polynomial.degree_sum_le _ _) ?_
    rw [Finset.sup_lt_iff (by exact_mod_cast WithBot.bot_lt_coe t)]
    intro j hj
    exact lt_of_le_of_lt (Polynomial.degree_C_mul_X_pow_le j _)
      (by exact_mod_cast Finset.mem_range.mp hj)
  have hcalc : ∀ q ∈ lst.enum, ∃ L,
      calculate_lagrange_coefficient m q.2 lst q.1 = .ok (some L) ∧
        ((L : Nat) : ZMod m) = mathL q.1 := by
    intro q hq
    obtain ⟨hlt, heq⟩ := enum_mem_spec hq
    obtain ⟨L, hcL, hLv⟩ := calc_coeff_value m hm lst q.1 hlt hx hnodup
    refine ⟨L, ?_, ?_⟩
    · rw [heq, ← List.getD_eq_getElem lst (0, 0) hlt]
      exact hcL
    · rw [hLv, hmathLdef]
  obtain ⟨S, hgo, hSlt, hScast⟩ := reconstruct_go_sum m lst mathL (by omega)
    lst.enum 0 (by omega) hcalc
  have hsum : ((lst.enum.map fun q => ((q.2.2 : Nat) : ZMod m) * mathL q.1).sum)
      = ∑ j in Finset.range t, (((lst.getD j (0, 0)).2 : Nat) : ZMod m) * mathL j := by
    have h := enumFrom_map_sum
      (fun (j : Nat) (p : Nat × Nat) => ((p.2 : Nat) : ZMod m) * mathL j) (0, 0) lst 0
    refine Eq.trans h (Finset.sum_congr rfl fun j _ => by rw [Nat.zero_add])
  have hy : ∀ j, j < t → (((lst.getD j (0, 0)).2 : Nat) : ZMod m) = f.eval (v j) := by
    intro j hj
    have hjmem : lst.getD j (0, 0) ∈ lst := by
      rw [List.getD_eq_getElem lst (0, 0) hj]
      exact lst.getElem_mem hj
    rw [(hmem _ hjmem).2, evaluate_polynomial_cast m c _ hc32, hfeval, ← hlen]
  have hsum2 : ∑ j in Finset.range t, (((lst.getD j (0, 0)).2 : Nat) : ZMod m) * mathL j
      = f.eval 0 := by
    refine sum_lagrange_eval_zero m hm t v (cast_injOn_of_nodup_fst m lst hx hnodup)
      (fun j => (((lst.getD j (0, 0)).2 : Nat) : ZMod m)) f hdeg hy
  have heval0 : f.eval 0 = ((c.getD 0 0 : Nat) : ZMod m) := by
    rw [hfeval 0]
    rw [Finset.sum_eq_single_of_mem 0 (Finset.mem_range.mpr (by omega)) ?_]
    · rw [pow_zero, mul_one]
    · intro j _ hj0
      rw [zero_pow hj0, mul_zero]
  have hSeq : S = c.getD 0 0 % m := by
    have hcastEq : ((S : Nat) : ZMod m) = ((c.getD 0 0 : Nat) : ZMod m) := by
      rw [hScast, Nat.cast_zero, zero_add, hsum, hsum2, heval0]
    have hmodeq := (ZMod.natCast_eq_natCast_iff _ _ _).mp hcastEq
    unfold Nat.ModEq at hmodeq
    rw [Nat.mod_eq_of_lt hSlt] at hmodeq
    exact hmodeq
  rw [reconstruct_secret, if_neg (by omega), List.take_length, ← hSeq]
  exact hgo

end Core

/-- The fixed SSS modulus `2^521 - 1` is prime (Lucas-Lehmer). -/
theorem P521_prime : Nat.Prime SSS.P521 :=
  lucas_lehmer_sufficiency 521 (by norm_num) (by norm_num)

namespace Core

theorem reconstruct_of_split (m : Nat) (hm : m.Prime) (t : Nat) (ht : 1 ≤ t)
    (ht32 : t ≤ 4294967296)
    (c : List Nat) (hc : c.length = t) (pool : List (Nat × Nat))
    (hpool : ∀ p ∈ pool, p.1 < m ∧ p.2 = evaluate_polynomial m c p.1)
    (hnodup_pool : (pool.map Prod.fst).Nodup)
    (sub : List (Nat × Nat)) (hsub : sub.Sublist pool) (hlen : t ≤ sub.length) :
    reconstruct_secret m t sub = .ok (some (c.getD 0 0 % m)) := by
  have htake : (sub.take t).Sublist pool := (List.take_sublist t sub).trans hsub
  have hlen' : (sub.take t).length = t := by
    rw [List.length_take]
    omega
  rw [reconstruct_secret_take m t sub hlen]
  have hres := reconstruct_exact m hm c (by rw [hc]; exact ht32) (sub.take t)
    (by rw [hlen', hc])
    (by omega)
    (fun p hp => hpool p (htake.subset hp))
    (List.Nodup.sublist (htake.map Prod.fst) hnodup_pool)
  rw [hlen'] at hres
  exact hres

end Core

/-- Claim C1: round trip.  SSS: for every holder (threshold at least 1, share
count below `2^32` so the `as u32` index truncation is lossless), every secret,
every choice of the random coefficients, and every subsequence of at least `t`
of the generated shares, reconstruction returns the secret reduced mod the
fixed 521-bit prime (the secret itself whenever it is already in the field).
VSS: same for every holder whose `q` is prime and exceeds the share count and
whose share count is below `2^32`, for every secret the split accepts
(`secret < q`), returning the secret exactly. -/
theorem C1_round_trip :
    (∀ (t n secret : Nat) (rand : List Nat) (sub : List SSS.Share),
        1 ≤ t → rand.length = t - 1 → n < 4294967296 →
        sub.Sublist (SSS.split_secret (SSS.SecretSharer.new t n) secret rand) →
        t ≤ sub.length →
        SSS.reconstruct_secret (SSS.SecretSharer.new t n) sub
          = .ok (some (secret % SSS.P521))) ∧
    (∀ (v : VSS.FeldmanVSS) (secret : Nat) (rng : Nat → Nat) (ctr : Nat)
        (shs : List VSS.Share) (comms : List Nat) (sub : List VSS.Share),
        v.params.q.Prime → 1 ≤ v.params.threshold →
        v.params.total_shares < v.params.q →
        v.params.total_shares < 4294967296 →
        (VSS.split_secret v secret rng ctr).1 = .ok (shs, comms) →
        sub.Sublist shs → v.params.threshold ≤ sub.length →
        VSS.reconstruct_secret v sub = .ok (some secret)) := by
  constructor
  · intro t n secret rand sub ht hrand hn32 hsub hlen
    have hm := P521_prime
    have hn : n < SSS.P521 := by
      have hge := P521_ge
      have h128 : (4294967296 : Nat) < 2 ^ 128 := by norm_num
      omega
    show Core.reconstruct_secret SSS.P521 t (sub.map fun sh => (sh.x, sh.y))
      = .ok (some (secret % SSS.P521))
    have hpool : ∀ p ∈ (SSS.split_secret (SSS.SecretSharer.new t n) secret rand).map
        (fun sh => (sh.x, sh.y)),
        p.1 < SSS.P521 ∧ p.2 = Core.evaluate_polynomial SSS.P521
          (secret % SSS.P521 :: rand) p.1 := by
      intro p hp
      obtain ⟨sh, hsh, rfl⟩ := List.mem_map.mp hp
      obtain ⟨k, hk, rfl⟩ := List.mem_map.mp hsh
      have hk' : k < n := List.mem_range.mp hk
      refine ⟨?_, rfl⟩
      show u32 (k + 1) < SSS.P521
      unfold u32
      omega
    have hnodup : (((SSS.split_secret (SSS.SecretSharer.new t n) secret rand).map
        (fun sh => (sh.x, sh.y))).map Prod.fst).Nodup := by
      have hlist : (((SSS.split_secret (SSS.SecretSharer.new t n) secret rand).map
          (fun sh => (sh.x, sh.y))).map Prod.fst)
          = (List.range n).map fun k => u32 (k + 1) := by
        show ((((List.range n).map _).map _).map _) = _
        rw [List.map_map, List.map_map]
        rfl
      have hlist2 : ((List.range n).map fun k => u32 (k + 1))
          = (List.range n).map fun k => k + 1 :=
        List.map_congr_left fun k hk => by
          have hk' : k < n := List.mem_range.mp hk
          unfold u32
          omega
      rw [hlist, hlist2]
      exact List.Nodup.map (fun a b h => by omega) (List.nodup_range n)
    have ht32 : t ≤ 4294967296 := by
      have hle := hsub.length_le
      have hpl : (SSS.split_secret (SSS.SecretSharer.new t n) secret rand).length = n := by
        simp [SSS.split_secret, SSS.SecretSharer.new]
      omega
    have hres := Core.reconstruct_of_split SSS.P521 hm t ht ht32
      (secret % SSS.P521 :: rand)
      (by simp [hrand]; omega) _ hpool hnodup (sub.map fun sh => (sh.x, sh.y))
      (hsub.map _) (by simpa using hlen)
    refine hres.trans ?_
    have hfix : ((secret % SSS.P521 :: rand).getD 0 0) % SSS.P521 = secret % SSS.P521 :=
      Nat.mod_mod_of_dvd secret dvd_rfl
    rw [hfix]
  · intro v secret rng ctr shs comms sub hq ht hn hn32 hsplit hsub hlen
    rw [VSS.split_secret] at hsplit
    by_cases hqs : v.params.q ≤ secret
    · rw [if_pos hqs] at hsplit
      cases hsplit
    · rw [if_neg hqs] at hsplit
      obtain ⟨hshs, _⟩ := Prod.mk.inj (Except.ok.inj hsplit)
      subst hshs
      have hsec : secret < v.params.q := by omega
      show Core.reconstruct_secret v.params.q v.params.threshold
        (sub.map fun sh => (sh.id, sh.value)) = .ok (some secret)
      have hpool : ∀ p ∈ (VSS.generate_shares v
          (VSS.generate_polynomial v secret rng ctr)).map (fun sh => (sh.id, sh.value)),
          p.1 < v.params.q ∧ p.2 = Core.evaluate_polynomial v.params.q
            (VSS.generate_polynomial v secret rng ctr) p.1 := by
        intro p hp
        obtain ⟨sh, hsh, rfl⟩ := List.mem_map.mp hp
        obtain ⟨k, hk, rfl⟩ := List.mem_map.mp hsh
        have hk' : k < v.params.total_shares := List.mem_range.mp hk
        refine ⟨?_, rfl⟩
        show u32 (k + 1) < v.params.q
        unfold u32
        omega
      have hnodup : (((VSS.generate_shares v
          (VSS.generate_polynomial v secret rng ctr)).map
          (fun sh => (sh.id, sh.value))).map Prod.fst).Nodup := by
        have hlist : (((VSS.generate_shares v
            (VSS.generate_polynomial v secret rng ctr)).map
            (fun sh => (sh.id, sh.value))).map Prod.fst)
            = (List.range v.params.total_shares).map fun k => u32 (k + 1) := by
          show ((((List.range v.params.total_shares).map _).map _).map _) = _
          rw [List.map_map, List.map_map]
          rfl
        have hlist2 : ((List.range v.params.total_shares).map fun k => u32 (k + 1))
            = (List.range v.params.total_shares).map fun k => k + 1 :=
          List.map_congr_left fun k hk => by
            have hk' : k < v.params.total_shares := List.mem_range.mp hk
            unfold u32
            omega
        rw [hlist, hlist2]
        exact List.Nodup.map (fun a b h => by omega) (List.nodup_range v.params.total_shares)
      have ht32 : v.params.threshold ≤ 4294967296 := by
        have hle := hsub.length_le
        have hpl : (VSS.generate_shares v
            (VSS.generate_polynomial v secret rng ctr)).length = v.params.total_shares := by
          simp [VSS.generate_shares]
        omega
      have hres := Core.reconstruct_of_split v.params.q hq v.params.threshold ht ht32
        (VSS.generate_polynomial v secret rng ctr)
        (by simp [VSS.generate_polynomial]; omega) _ hpool hnodup
        (sub.map fun sh => (sh.id, sh.value)) (hsub.map _) (by simpa using hlen)
      refine hres.trans ?_
      have hfix : ((VSS.generate_polynomial v secret rng ctr).getD 0 0) % v.params.q
          = secret := by
        show secret % v.params.q = secret
        exact Nat.mod_eq_of_lt hsec
      rw [hfix]

/-- Witness for C1 at a concrete input: threshold 2 of 3, secret 5, random
coefficient 7, reconstructing from the full generated share list. -/
theorem C1_round_trip_witness :
    ((1 : Nat) ≤ 2 ∧ ([7] : List Nat).length = 2 - 1 ∧ (3 : Nat) < 4294967296 ∧
      2 ≤ (SSS.split_secret (SSS.SecretSharer.new 2 3) 5 [7]).length) ∧
    SSS.reconstruct_secret (SSS.SecretSharer.new 2 3)
        (SSS.split_secret (SSS.SecretSharer.new 2 3) 5 [7])
      = .ok (some (5 % SSS.P521)) := by
  have hlen : 2 ≤ (SSS.split_secret (SSS.SecretSharer.new 2 3) 5 [7]).length := by
    simp [SSS.split_secret, SSS.SecretSharer.new]
  exact ⟨⟨by norm_num, by norm_num, by norm_num, hlen⟩,
    C1_round_trip.1 2 3 5 [7] (SSS.split_secret (SSS.SecretSharer.new 2 3) 5 [7])
      (by norm_num) (by norm_num) (by norm_num) (List.Sublist.refl _) hlen⟩

theorem modPow_lt (b e m : Nat) (hm : 1 ≤ m) : modPow b e m < m := by
  rw [modPow_eq]
  exact Nat.mod_lt _ (by omega)

namespace Core

theorem foldl_mod_lt (m : Nat) (hm : 1 ≤ m) {α : Type} (F : Nat → α → Nat) :
    ∀ (l : List α) (a : Nat), l ≠ [] → (l.foldl (fun acc e => F acc e % m) a) < m := by
  intro l
  induction l with
  | nil =>
    intro a h
    cases h rfl
  | cons e rest ih =>
    intro a _
    rw [List.foldl_cons]
    rcases rest with _ | ⟨f, rest'⟩
    · rw [List.foldl_nil]
      exact Nat.mod_lt _ (by omega)
    · exact ih _ (by simp)

theorem foldl_mod_mul_cast (m : Nat) {α : Type} (g : α → Nat) :
    ∀ (l : List α) (a : Nat),
      ((l.foldl (fun acc e => acc * g e % m) a : Nat) : ZMod m)
        = (a : ZMod m) * (l.map fun e => ((g e : Nat) : ZMod m)).prod := by
  intro l
  induction l with
  | nil => intro a; simp
  | cons e l ih =>
    intro a
    rw [List.foldl_cons, ih, List.map_cons, List.prod_cons]
    push_cast [ZMod.natCast_mod]
    ring

theorem enumFrom_map_prod {α M : Type} [CommMonoid M] (G : Nat → α → M) (d : α) :
    ∀ (l : List α) (k : Nat),
      ((l.enumFrom k).map fun q => G q.1 q.2).prod
        = ∏ j in Finset.range l.length, G (k + j) (l.getD j d) := by
  intro l
  induction l with
  | nil => intro k; simp
  | cons a l ih =>
    intro k
    rw [List.enumFrom_cons, List.map_cons, List.prod_cons, ih (k + 1),
      List.length_cons, Finset.prod_range_succ']
    have h1 : ∀ j, G (k + 1 + j) (l.getD j d) = G (k + (j + 1)) ((a :: l).getD (j + 1) d) := by
      intro j
      have : k + 1 + j = k + (j + 1) := by omega
      rw [this]
      rfl
    rw [Finset.prod_congr rfl fun j _ => h1 j]
    have h0 : G (k + 0) ((a :: l).getD 0 d) = G k a := by
      rw [Nat.add_zero]
      rfl
    rw [h0, mul_comm]

theorem foldl_mod_add_modeq (m : Nat) {α : Type} (g : α → Nat) :
    ∀ (l : List α) (a : Nat),
      Nat.ModEq m (l.foldl (fun acc e => (acc + g e) % m) a) (a + (l.map g).sum) := by
  intro l
  induction l with
  | nil => intro a; simp [Nat.ModEq.refl]
  | cons e l ih =>
    intro a
    rw [List.foldl_cons, List.map_cons, List.sum_cons]
    refine (ih ((a + g e) % m)).trans ?_
    have h1 : (a + g e) % m ≡ a + g e [MOD m] := Nat.mod_modEq _ _
    have h2 := h1.add_right ((l.map g).sum)
    refine h2.trans ?_
    rw [Nat.add_assoc]

theorem evaluate_polynomial_modeq (q : Nat) (c : List Nat) (x : Nat) :
    Nat.ModEq q (evaluate_polynomial q c x)
      (∑ j in Finset.range c.length, c.getD j 0 * (x ^ u32 j % q)) := by
  rw [evaluate_polynomial, List.enum]
  refine (foldl_mod_add_modeq q (fun pc => pc.2 * modPow x (u32 pc.1) q)
    (c.enumFrom 0) 0).trans ?_
  rw [Nat.zero_add]
  have h := enumFrom_map_sum (fun (j : Nat) (cj : Nat) => cj * modPow x (u32 j) q) 0 c 0
  rw [h]
  have h2 : ∀ j, c.getD j 0 * modPow x (u32 j) q = c.getD j 0 * (x ^ u32 j % q) := by
    intro j
    rw [modPow_eq]
  rw [Finset.sum_congr rfl fun j _ => by rw [Nat.zero_add, h2 j]]

theorem evaluate_polynomial_lt (m : Nat) (hm : 1 ≤ m) (c : List Nat) (x : Nat)
    (hc : c ≠ []) : evaluate_polynomial m c x < m := by
  rw [evaluate_polynomial]
  refine foldl_mod_lt m hm _ c.enum 0 ?_
  intro henum
  apply hc
  have := congrArg List.length henum
  rw [List.enum_length] at this
  exact List.length_eq_zero.mp this

end Core

namespace VSS

theorem commitment_product_cast (v : FeldmanVSS) (c : List Nat) (sh : Share) :
    ((compute_commitment_product v sh (generate_commitments v c) : Nat)
        : ZMod v.params.p)
      = (v.params.g : ZMod v.params.p)
          ^ (∑ j in Finset.range c.length,
              c.getD j 0 * (sh.id ^ u32 j % v.params.q)) := by
  have h1 : ((compute_commitment_product v sh (generate_commitments v c) : Nat)
        : ZMod v.params.p)
      = (((generate_commitments v c).enumFrom 0).map
          (fun pc => ((modPow pc.2 (modPow sh.id (u32 pc.1) v.params.q) v.params.p : Nat)
            : ZMod v.params.p))).prod := by
    rw [compute_commitment_product, List.enum,
      Core.foldl_mod_mul_cast v.params.p
        (fun pc : Nat × Nat => modPow pc.2 (modPow sh.id (u32 pc.1) v.params.q) v.params.p)
        ((generate_commitments v c).enumFrom 0) 1]
    rw [Nat.cast_one, one_mul]
  have h2 : (((generate_commitments v c).enumFrom 0).map
        (fun pc => ((modPow pc.2 (modPow sh.id (u32 pc.1) v.params.q) v.params.p : Nat)
          : ZMod v.params.p))).prod
      = ∏ j in Finset.range (generate_commitments v c).length,
          ((modPow ((generate_commitments v c).getD j 0)
            (modPow sh.id (u32 j) v.params.q) v.params.p : Nat) : ZMod v.params.p) := by
    have h := Core.enumFrom_map_prod (fun (j cm : Nat) =>
      ((modPow cm (modPow sh.id (u32 j) v.params.q) v.params.p : Nat) : ZMod v.params.p)) 0
      (generate_commitments v c) 0
    exact h.trans (Finset.prod_congr rfl fun j _ => by rw [Nat.zero_add])
  rw [h1, h2]
  rw [show (generate_commitments v c).length = c.length by
    rw [generate_commitments, List.length_map]]
  rw [← Finset.prod_pow_eq_pow_sum]
  refine Finset.prod_congr rfl fun j hj => ?_
  have hj' : j < c.length := Finset.mem_range.mp hj
  have hgetD : (generate_commitments v c).getD j 0
      = modPow v.params.g (c.getD j 0) v.params.p := by
    rw [generate_commitments, List.getD_eq_getElem _ _ (by simpa using hj'),
      List.getElem_map, List.getD_eq_getElem _ _ hj']
  rw [hgetD, modPow_cast, modPow_cast, ← pow_mul, modPow_eq]

theorem order_pos (p g : Nat) (hp : p.Prime) (hg : (g : ZMod p) ≠ 0) :
    0 < orderOf (g : ZMod p) := by
  haveI := Fact.mk hp
  have h := orderOf_pos (Units.mk0 (g : ZMod p) hg)
  rwa [← orderOf_units, Units.val_mk0] at h

theorem g_pow_eq_iff (p q g : Nat) (hp : p.Prime) (hg : (g : ZMod p) ≠ 0)
    (hord : orderOf (g : ZMod p) = q) (A B : Nat) :
    ((g : ZMod p) ^ A = (g : ZMod p) ^ B) ↔ A ≡ B [MOD q] := by
  haveI := Fact.mk hp
  have hu : orderOf (Units.mk0 (g : ZMod p) hg) = q := by
    rw [← orderOf_units, Units.val_mk0, hord]
  constructor
  · intro h
    have h2 : (Units.mk0 (g : ZMod p) hg) ^ A = (Units.mk0 (g : ZMod p) hg) ^ B := by
      ext
      simpa [Units.val_pow_eq_pow_val] using h
    rw [← hu]
    exact pow_eq_pow_iff_modEq.mp h2
  · intro h
    have h2 : (Units.mk0 (g : ZMod p) hg) ^ A = (Units.mk0 (g : ZMod p) hg) ^ B :=
      pow_eq_pow_iff_modEq.mpr (by rwa [hu])
    have h3 := congrArg Units.val h2
    simpa [Units.val_pow_eq_pow_val] using h3

theorem verify_share_iff (v : FeldmanVSS) (hp : v.params.p.Prime)
    (hg : (v.params.g : ZMod v.params.p) ≠ 0)
    (hord : orderOf (v.params.g : ZMod v.params.p) = v.params.q)
    (c : List Nat) (hc : c ≠ []) (sh : Share) :
    (verify_share v sh (generate_commitments v c) = true)
      ↔ Nat.ModEq v.params.q (Core.evaluate_polynomial v.params.q c sh.id) sh.value := by
  have hppos : 1 ≤ v.params.p := le_of_lt hp.one_lt
  have hclen : (generate_commitments v c).length = c.length := by
    rw [generate_commitments, List.length_map]
  have hlhs_lt : compute_commitment_product v sh (generate_commitments v c)
      < v.params.p := by
    rw [compute_commitment_product]
    refine Core.foldl_mod_lt v.params.p hppos _ _ 1 ?_
    intro henum
    apply hc
    have hlen := congrArg List.length henum
    rw [List.enum_length, hclen] at hlen
    exact List.length_eq_zero.mp hlen
  have hrhs_lt : modPow v.params.g sh.value v.params.p < v.params.p :=
    modPow_lt _ _ _ hppos
  rw [verify_share, beq_iff_eq]
  have hcast_iff : (compute_commitment_product v sh (generate_commitments v c)
        = modPow v.params.g sh.value v.params.p)
      ↔ ((compute_commitment_product v sh (generate_commitments v c) : Nat)
            : ZMod v.params.p)
          = ((modPow v.params.g sh.value v.params.p : Nat) : ZMod v.params.p) := by
    constructor
    · exact fun h => by rw [h]
    · intro h
      have hmodeq := (ZMod.natCast_eq_natCast_iff _ _ _).mp h
      unfold Nat.ModEq at hmodeq
      rwa [Nat.mod_eq_of_lt hlhs_lt, Nat.mod_eq_of_lt hrhs_lt] at hmodeq
  rw [hcast_iff, commitment_product_cast, modPow_cast,
    g_pow_eq_iff v.params.p v.params.q v.params.g hp hg hord]
  have hA := Core.evaluate_polynomial_modeq v.params.q c sh.id
  constructor
  · exact fun h => hA.trans h
  · exact fun h => hA.symm.trans h

end VSS

/-- Claim C5: commitment binding.  For every holder whose parameters are valid
(`p` prime, `g` nonzero mod `p` of multiplicative order exactly `q`) and every
secret the split accepts, each generated share verifies against the generated
commitments; replacing a share's value by anything not congruent mod `q` to
the polynomial value, or its id by any id at which the polynomial evaluates
differently, makes verification return false. -/
theorem C5_commitment_binding :
    ∀ (v : VSS.FeldmanVSS) (secret : Nat) (rng : Nat → Nat) (ctr : Nat)
      (shs : List VSS.Share) (comms : List Nat),
      v.params.p.Prime →
      (v.params.g : ZMod v.params.p) ≠ 0 →
      orderOf (v.params.g : ZMod v.params.p) = v.params.q →
      (VSS.split_secret v secret rng ctr).1 = .ok (shs, comms) →
      ∀ sh ∈ shs,
        (VSS.verify_share v sh comms = true) ∧
        (∀ w, ¬ Nat.ModEq v.params.q w sh.value →
          VSS.verify_share v ⟨sh.id, w⟩ comms = false) ∧
        (∀ x', Core.evaluate_polynomial v.params.q
            (VSS.generate_polynomial v secret rng ctr) x' ≠ sh.value →
          VSS.verify_share v ⟨x', sh.value⟩ comms = false) := by
  intro v secret rng ctr shs comms hp hg hord hsplit sh hsh
  have hqpos : 0 < v.params.q := hord ▸ VSS.order_pos v.params.p v.params.g hp hg
  rw [VSS.split_secret] at hsplit
  by_cases hqs : v.params.q ≤ secret
  · rw [if_pos hqs] at hsplit
    cases hsplit
  · rw [if_neg hqs] at hsplit
    obtain ⟨hshs, hcomms⟩ := Prod.mk.inj (Except.ok.inj hsplit)
    subst hshs
    subst hcomms
    have hcne : VSS.generate_polynomial v secret rng ctr ≠ [] := by
      rw [VSS.generate_polynomial]
      exact List.cons_ne_nil _ _
    obtain ⟨k, hk, rfl⟩ := List.mem_map.mp hsh
    have hval : ∀ x : Nat,
        Core.evaluate_polynomial v.params.q (VSS.generate_polynomial v secret rng ctr) x
          < v.params.q :=
      fun x => Core.evaluate_polynomial_lt v.params.q (by omega) _ x hcne
    refine ⟨?_, ?_, ?_⟩
    · rw [VSS.verify_share_iff v hp hg hord _ hcne]
    · intro w hw
      rw [Bool.eq_false_iff]
      intro htrue
      rw [VSS.verify_share_iff v hp hg hord _ hcne] at htrue
      exact hw ((Nat.ModEq.symm htrue).trans (Nat.ModEq.refl _))
    · intro x' hx'
      rw [Bool.eq_false_iff]
      intro htrue
      rw [VSS.verify_share_iff v hp hg hord _ hcne] at htrue
      apply hx'
      have hlt1 := hval x'
      have hlt2 := hval (u32 (k + 1))
      have := htrue
      unfold Nat.ModEq at this
      rw [Nat.mod_eq_of_lt hlt1, Nat.mod_eq_of_lt hlt2] at this
      exact this

/-- Witness for C5 at the repository's own test parameters (`p = 23`,
`q = 11`, `g = 2`, threshold 3 of 5, secret 7, random coefficients 3 and 5):
the first generated share verifies; changing its value from 4 to 5, or its id
from 1 to 6 (where the polynomial takes value 7, not 4), fails verification. -/
theorem C5_commitment_binding_witness :
    ((VSS.split_secret ⟨⟨23, 11, 2, 3, 5⟩⟩ 7 (fun i => [3, 5].getD i 0) 0).1
        = .ok ([⟨1, 4⟩, ⟨2, 0⟩, ⟨3, 6⟩, ⟨4, 0⟩, ⟨5, 4⟩], [13, 8, 9])) ∧
    VSS.verify_share ⟨⟨23, 11, 2, 3, 5⟩⟩ ⟨1, 4⟩ [13, 8, 9] = true ∧
    VSS.verify_share ⟨⟨23, 11, 2, 3, 5⟩⟩ ⟨1, 5⟩ [13, 8, 9] = false ∧
    VSS.verify_share ⟨⟨23, 11, 2, 3, 5⟩⟩ ⟨6, 4⟩ [13, 8, 9] = false := by
  have hp : Nat.Prime 23 := by norm_num
  have hg : ((2 : Nat) : ZMod 23) ≠ 0 := by decide
  have hord : orderOf ((2 : Nat) : ZMod 23) = 11 := by
    haveI : Fact (Nat.Prime 11) := ⟨by norm_num⟩
    refine orderOf_eq_prime ?_ ?_
    · decide
    · decide
  have h := C5_commitment_binding ⟨⟨23, 11, 2, 3, 5⟩⟩ 7 (fun i => [3, 5].getD i 0) 0
    [⟨1, 4⟩, ⟨2, 0⟩, ⟨3, 6⟩, ⟨4, 0⟩, ⟨5, 4⟩] [13, 8, 9] hp hg hord (by rfl)
  have h1 := h ⟨1, 4⟩ (by simp)
  refine ⟨by rfl, h1.1, ?_, ?_⟩
  · exact h1.2.1 5 (by decide)
  · exact h1.2.2 6 (by decide)
